import Mathlib

/-!
Shallow embedding of the code-react scaffolder (src/scaffolder.js) and
proofs of the specified properties of its file-tree capture / filter /
merge pipeline.

Strings are modelled as `List Char`, file bytes as `List Nat` (each byte
below 256), JS objects keyed by strings as association lists whose first
binding for a key is the one JS observes.
-/

namespace CodeReact

/-- String literal convenience: the character list of a Lean string. -/
def chars (s : String) : List Char := s.toList

/-- ASCII lowercasing of one character, as the `/i` regex flag applies to
the ASCII letters of the extension alternatives in
`/\.(png|jpg|jpeg|gif|ico|woff|woff2|ttf|eot)$/i`. -/
def lowerc : Char → Char
  | 'A' => 'a'
  | 'B' => 'b'
  | 'C' => 'c'
  | 'D' => 'd'
  | 'E' => 'e'
  | 'F' => 'f'
  | 'G' => 'g'
  | 'H' => 'h'
  | 'I' => 'i'
  | 'J' => 'j'
  | 'K' => 'k'
  | 'L' => 'l'
  | 'M' => 'm'
  | 'N' => 'n'
  | 'O' => 'o'
  | 'P' => 'p'
  | 'Q' => 'q'
  | 'R' => 'r'
  | 'S' => 's'
  | 'T' => 't'
  | 'U' => 'u'
  | 'V' => 'v'
  | 'W' => 'w'
  | 'X' => 'x'
  | 'Y' => 'y'
  | 'Z' => 'z'
  | c => c

/-- The fixed allow-list of binary extensions from the regex in
`readDirectoryRecursive` (src/scaffolder.js line 111). -/
def binaryExts : List (List Char) :=
  [chars "png", chars "jpg", chars "jpeg", chars "gif", chars "ico",
   chars "woff", chars "woff2", chars "ttf", chars "eot"]

/-- Boolean test that `s` is an initial segment of `l`. -/
def pfxOf : List Char → List Char → Bool
  | [], _ => true
  | _ :: _, [] => false
  | a :: s, b :: l => if a = b then pfxOf s l else false

/-- Boolean test that `s` is a final segment of `l`. -/
def sfxOf (s l : List Char) : Bool := pfxOf s.reverse l.reverse

/-- The binary/text classification of `readDirectoryRecursive`: the regex
`/\.(png|...|eot)$/i` tested against the file name, i.e. the lowercased
name ends in a dot followed by one of the allow-listed extensions. -/
def isBinaryName (name : List Char) : Bool :=
  binaryExts.any (fun e => sfxOf ('.' :: e) (name.map lowerc))

/-- Whether a character is not the dot. -/
def notDot (c : Char) : Bool := c ≠ '.'

/-- The extension of a file name: the segment after the last dot, when the
name has a dot at all. -/
def extOf (l : List Char) : Option (List Char) :=
  if ('.' : Char) ∈ l then some ((l.reverse.takeWhile notDot).reverse)
  else none

/-- The extension of a file name with its ASCII letters lowercased. -/
def lowerExt (l : List Char) : Option (List Char) := extOf (l.map lowerc)

/-! ## Base64, modelling Node's `Buffer` base64 used by
`fs.readFileSync(fullPath, 'base64')`. -/

/-- The 64 characters of the standard base64 alphabet. -/
def b64Alphabet : List Char :=
  ['A', 'B', 'C', 'D', 'E', 'F', 'G', 'H', 'I', 'J', 'K', 'L', 'M',
   'N', 'O', 'P', 'Q', 'R', 'S', 'T', 'U', 'V', 'W', 'X', 'Y', 'Z',
   'a', 'b', 'c', 'd', 'e', 'f', 'g', 'h', 'i', 'j', 'k', 'l', 'm',
   'n', 'o', 'p', 'q', 'r', 's', 't', 'u', 'v', 'w', 'x', 'y', 'z',
   '0', '1', '2', '3', '4', '5', '6', '7', '8', '9', '+', '/']

/-- The base64 digit for a sextet value. -/
def enc6 (i : Nat) : Char := b64Alphabet.getD i '?'

/-- The index of a character in a list, searching from position `i`. -/
def findAt : List Char → Char → Nat → Option Nat
  | [], _, _ => none
  | a :: rest, c, i => if a = c then some i else findAt rest c (i + 1)

/-- The sextet value of a base64 digit; `none` for a character outside the
alphabet (in particular for the pad character). -/
def dec6 (c : Char) : Option Nat := findAt b64Alphabet c 0

/-- Base64 encoding of a byte sequence, three bytes to four digits, with
`=` padding on a final group of one or two bytes. -/
def b64Encode : List Nat → List Char
  | [] => []
  | [b0] => [enc6 (b0 / 4), enc6 (b0 % 4 * 16), '=', '=']
  | [b0, b1] => [enc6 (b0 / 4), enc6 (b0 % 4 * 16 + b1 / 16), enc6 (b1 % 16 * 4), '=']
  | b0 :: b1 :: b2 :: rest =>
      enc6 (b0 / 4) :: enc6 (b0 % 4 * 16 + b1 / 16) ::
      enc6 (b1 % 16 * 4 + b2 / 64) :: enc6 (b2 % 64) :: b64Encode rest

/-- Base64 decoding, four digits to three bytes, honouring `=` padding in
a final group. -/
def b64Decode : List Char → Option (List Nat)
  | [] => some []
  | c0 :: c1 :: c2 :: c3 :: rest =>
      match dec6 c0, dec6 c1 with
      | some s0, some s1 =>
        if c2 = '=' then
          if c3 = '=' ∧ rest = [] then some [s0 * 4 + s1 / 16] else none
        else
          match dec6 c2 with
          | some s2 =>
            if c3 = '=' then
              if rest = [] then some [s0 * 4 + s1 / 16, s1 % 16 * 16 + s2 / 4] else none
            else
              match dec6 c3 with
              | some s3 =>
                (b64Decode rest).map
                  (fun bs => (s0 * 4 + s1 / 16) :: (s1 % 16 * 16 + s2 / 4) ::
                             (s2 % 4 * 64 + s3) :: bs)
              | none => none
          | none => none
      | _, _ => none
  | _ => none

/-! ## UTF-8 decoding, modelling Node's lossy `'utf8'` decode used by
`fs.readFileSync(fullPath, 'utf8')`. Node follows the WHATWG UTF-8
decoder: the first continuation byte after lead `0xE0` must be at least
`0xA0`, after `0xED` at most `0x9F`, after `0xF0` at least `0x90`, after
`0xF4` at most `0x8F` (excluding overlong forms, surrogates and code
points above U+10FFFF); every other continuation byte is `0x80`–`0xBF`.
An invalid byte aborts the pending sequence with one replacement
character and is then reprocessed itself as a fresh lead; an input ending
mid-sequence contributes one replacement character. -/

/-- The replacement character emitted for invalid byte sequences. -/
def repl : Char := Char.ofNat 0xFFFD

/-- Whether a byte is in the default UTF-8 continuation range. -/
def isCont (b : Nat) : Bool := 0x80 ≤ b && b ≤ 0xBF

/-- The WHATWG lower boundary for the continuation byte right after the
given lead byte. -/
def contLo (b : Nat) : Nat :=
  if b = 0xE0 then 0xA0 else if b = 0xF0 then 0x90 else 0x80

/-- The WHATWG upper boundary for the continuation byte right after the
given lead byte. -/
def contHi (b : Nat) : Nat :=
  if b = 0xED then 0x9F else if b = 0xF4 then 0x8F else 0xBF

/-- Lossy UTF-8 decoding of a byte sequence, per the WHATWG algorithm. -/
def utf8Decode : List Nat → List Char
  | [] => []
  | b :: bs =>
    if b < 0x80 then Char.ofNat b :: utf8Decode bs
    else if 0xC2 ≤ b && b ≤ 0xDF then
      match bs with
      | [] => [repl]
      | b1 :: bs1 =>
        if isCont b1 then
          Char.ofNat ((b - 0xC0) * 0x40 + (b1 - 0x80)) :: utf8Decode bs1
        else repl :: utf8Decode (b1 :: bs1)
    else if 0xE0 ≤ b && b ≤ 0xEF then
      match bs with
      | [] => [repl]
      | b1 :: bs1 =>
        if contLo b ≤ b1 && b1 ≤ contHi b then
          match bs1 with
          | [] => [repl]
          | b2 :: bs2 =>
            if isCont b2 then
              Char.ofNat ((b - 0xE0) * 0x1000 + (b1 - 0x80) * 0x40 + (b2 - 0x80)) ::
                utf8Decode bs2
            else repl :: utf8Decode (b2 :: bs2)
        else repl :: utf8Decode (b1 :: bs1)
    else if 0xF0 ≤ b && b ≤ 0xF4 then
      match bs with
      | [] => [repl]
      | b1 :: bs1 =>
        if contLo b ≤ b1 && b1 ≤ contHi b then
          match bs1 with
          | [] => [repl]
          | b2 :: bs2 =>
            if isCont b2 then
              match bs2 with
              | [] => [repl]
              | b3 :: bs3 =>
                if isCont b3 then
                  Char.ofNat ((b - 0xF0) * 0x40000 + (b1 - 0x80) * 0x1000 +
                              (b2 - 0x80) * 0x40 + (b3 - 0x80)) :: utf8Decode bs3
                else repl :: utf8Decode (b3 :: bs3)
            else repl :: utf8Decode (b2 :: bs2)
        else repl :: utf8Decode (b1 :: bs1)
    else repl :: utf8Decode bs
termination_by l => l.length
decreasing_by all_goals simp <;> omega

/-! ## Directory Snapshotter (`readDirectoryRecursive`) -/

/-- The encoding tag of a captured file entry: the `type` field of the
entries `readDirectoryRecursive` builds. -/
inductive Encoding where
  | binary
  | text
deriving DecidableEq

/-- One captured file: the `\x7btype, content\x7d` object stored per path. -/
structure FileEntry where
  enc : Encoding
  content : List Char
deriving DecidableEq

/-- The in-memory file map keyed by relative path. -/
abbrev FileMap := List (List Char × FileEntry)

/-- A directory tree: the filesystem subtree `readDirectoryRecursive`
walks, with file contents as raw bytes. -/
inductive FsTree where
  | file (name : List Char) (content : List Nat)
  | dir (name : List Char) (children : List FsTree)

/-- Path joining for relative keys: `path.join(basePath, item.name)` when
`basePath` is nonempty, the bare item name otherwise. -/
def pathJoin (base name : List Char) : List Char :=
  match base with
  | [] => name
  | _ :: _ => base ++ '/' :: name

/-- The captured entry for one file, per the binary/text branch of
`readDirectoryRecursive`: base64 content for an allow-listed extension,
UTF-8 decoded content otherwise. -/
def mkEntry (name : List Char) (content : List Nat) : FileEntry :=
  if isBinaryName name then ⟨.binary, b64Encode content⟩
  else ⟨.text, utf8Decode content⟩

/-- The recursive walk of `readDirectoryRecursive`: files become entries
keyed by the joined relative path, directories are recursed into and their
results merged. -/
def readDir : List FsTree → List Char → FileMap
  | [], _ => []
  | .file n c :: rest, base => (pathJoin base n, mkEntry n c) :: readDir rest base
  | .dir n sub :: rest, base => readDir sub (pathJoin base n) ++ readDir rest base

/-- All file contents in a tree are byte sequences (each value below 256). -/
def treeBytesOk : List FsTree → Bool
  | [] => true
  | .file _ c :: rest => c.all (fun b => b < 256) && treeBytesOk rest
  | .dir _ sub :: rest => treeBytesOk sub && treeBytesOk rest

/-- A file with the given name and content occurs somewhere in the tree. -/
inductive FileInTree : List FsTree → List Char → List Nat → Prop where
  | here (n : List Char) (c : List Nat) (rest : List FsTree) :
      FileInTree (.file n c :: rest) n c
  | there (x : FsTree) (rest : List FsTree) (n : List Char) (c : List Nat) :
      FileInTree rest n c → FileInTree (x :: rest) n c
  | inDir (d : List Char) (sub rest : List FsTree) (n : List Char) (c : List Nat) :
      FileInTree sub n c → FileInTree (.dir d sub :: rest) n c

/-! ## File Remover (`removeFiles`) -/

/-- First binding for a key in an association list: the value a JS object
lookup observes. -/
def lookupKey {α : Type} (k : List Char) : List (List Char × α) → Option α
  | [] => none
  | (k2, v) :: rest => if k2 = k then some v else lookupKey k rest

/-- Whether a key is present: the truthiness test `files[fileToRemove]`
(entry objects are always truthy). -/
def hasKey {α : Type} (k : List Char) (m : List (List Char × α)) : Bool :=
  (lookupKey k m).isSome

/-- Deleting a key: the effect of `delete files[fileToRemove]`. -/
def eraseKey {α : Type} (k : List Char) (m : List (List Char × α)) :
    List (List Char × α) :=
  m.filter (fun kv => kv.1 ≠ k)

/-- The body of `removeFiles`'s loop over the removal list: delete each
listed path that is present; an absent path only warns. -/
def removeLoop (m : FileMap) : List (List Char) → FileMap
  | [] => m
  | p :: ps => removeLoop (if hasKey p m then eraseKey p m else m) ps

/-- `removeFiles(files, filesToRemove)`: an absent (`none`) or empty
removal list returns the map unchanged, otherwise each listed path is
deleted when present. -/
def removeFiles (m : FileMap) (toRemove : Option (List (List Char))) : FileMap :=
  match toRemove with
  | none => m
  | some [] => m
  | some ps => removeLoop m ps

/-! ## Manifest Merger (`updatePackageJson`) -/

/-- A JS object of package-name to version-string bindings. -/
abbrev Obj := List (List Char × List Char)

/-- JS object spread `\x7b...a, ...b\x7d` restricted to string values:
keys of `a` keep their place, with `b`'s value when `b` also binds them;
keys only in `b` follow. -/
def spreadMerge (a b : Obj) : Obj :=
  a.map (fun kv =>
    match lookupKey kv.1 b with
    | some v => (kv.1, v)
    | none => kv) ++
  b.filter (fun kv => ¬ hasKey kv.1 a)

/-- The parsed manifest, keeping the two fields `updatePackageJson`
touches; a missing field is `none` (JS `undefined`). -/
structure Manifest where
  dependencies : Option Obj
  devDependencies : Option Obj
deriving DecidableEq

/-- The `npm` group of a module's `dependencies` value from meta.json. -/
structure NpmGroups where
  dependencies : Option Obj
  devDependencies : Option Obj

/-- The `dependencies` value handed to `updatePackageJson`. -/
structure DepGroups where
  npm : Option NpmGroups

/-- The merge `updatePackageJson` performs on a parsed manifest: spread
the incoming `npm.dependencies` over the manifest's `dependencies` when
the incoming group is present (an absent manifest group spreads as empty),
and likewise for `devDependencies`. -/
def updatePackageJson (pkg : Manifest) (deps : DepGroups) : Manifest :=
  let pkg1 :=
    match deps.npm with
    | some g =>
      match g.dependencies with
      | some inc => { pkg with dependencies := some (spreadMerge (pkg.dependencies.getD []) inc) }
      | none => pkg
    | none => pkg
  match deps.npm with
  | some g =>
    match g.devDependencies with
    | some inc => { pkg1 with devDependencies := some (spreadMerge (pkg1.devDependencies.getD []) inc) }
    | none => pkg1
  | none => pkg1

/-- The incoming `npm.dependencies` group, empty when absent. -/
def incDeps (deps : DepGroups) : Obj :=
  ((deps.npm.bind NpmGroups.dependencies).getD [])

/-- The incoming `npm.devDependencies` group, empty when absent. -/
def incDevDeps (deps : DepGroups) : Obj :=
  ((deps.npm.bind NpmGroups.devDependencies).getD [])

/-! ## Command Runner (`runCommand`) -/

/-- The errors the scaffolder can reject with. `launchErr` models the
`Error` built from a spawn failure (message `Failed to run COMMAND: MSG`),
`nonZeroExit` the `Error` whose message is
`DESCRIPTION failed with exit code CODE`; note neither carries the
captured output streams. `manifestParse` models the `SyntaxError` that
`JSON.parse` throws on malformed manifest text. -/
inductive Err where
  | launchErr (command : List Char) (msg : List Char)
  | nonZeroExit (description : List Char) (code : Int)
  | manifestParse (raw : List Char)
deriving DecidableEq

/-- What happens to one spawned child process: either the spawn itself
fails (the `error` event) or the process terminates with an exit code
having produced the given output streams (the `close` event). -/
inductive CmdOutcome where
  | spawnErr (msg : List Char)
  | exits (code : Int) (stdout stderr : List Char)
deriving DecidableEq

/-- What `runCommand` does with a child-process outcome: exit code 0
resolves with no value; a nonzero exit code rejects with an error carrying
the description and code, writing the captured stdout and stderr to the
console log; a spawn failure rejects with the launch error. The second
component lists the console-logged failure output. -/
def runCommand (command : List Char) (description : List Char)
    (o : CmdOutcome) : Except Err Unit × List (List Char) :=
  match o with
  | .spawnErr m => (.error (.launchErr command m), [])
  | .exits code out err =>
    if code = 0 then (.ok (), [])
    else (.error (.nonZeroExit description code), [out, err])

/-! ## Scaffold Orchestrator (`scaffold`) -/

/-- A JS value, as far as the strict comparison
`fieldValues.useTypeScript !== false` distinguishes them. -/
inductive JsVal where
  | undefinedV
  | nullv
  | boolean (b : Bool)
  | number (n : Int)
  | strv (s : List Char)
deriving DecidableEq

/-- The module field values consulted by `scaffold`. -/
structure Fields where
  useTypeScript : JsVal

/-- The `useTypeScript` field value: `undefined` when `module.fieldValues`
is absent (`module.fieldValues || \x7b\x7d`) or the field itself is. -/
def getUseTS (fv : Option Fields) : JsVal :=
  match fv with
  | some f => f.useTypeScript
  | none => .undefinedV

/-- The Vite template selector: `react-ts` unless `useTypeScript` is
exactly the boolean `false` (`fieldValues.useTypeScript !== false`
defaults TypeScript to enabled). -/
def selectTemplate (fv : Option Fields) : List Char :=
  if getUseTS fv = JsVal.boolean false then chars "react" else chars "react-ts"

/-- The on-disk state of the generated `package.json`: present and parsing
to a manifest, or present with malformed JSON, captured by the raw text. -/
inductive PkgContent where
  | valid (m : Manifest)
  | invalid (raw : List Char)

/-- The externally observable steps of one scaffold run, in execution
order. -/
inductive StepTag where
  | viteCreate (template : List Char)
  | updatePkg
  | npmInstall
  | shadcnInit
  | snapshot
  | removeStep
  | cleanup
deriving DecidableEq

/-- Everything outside the scaffolder that determines one run: the module
configuration and context fields it reads, and the outcome of each
external effect (child processes, the generated manifest on disk, the
generated tree, the temp-dir removal). -/
structure ScaffoldEnv where
  fieldValues : Option Fields
  depGroups : Option DepGroups
  removeList : Option (List (List Char))
  viteOutcome : CmdOutcome
  pkgFile : Option PkgContent
  testMode : Bool
  installOutcome : CmdOutcome
  shadcnOutcome : CmdOutcome
  tree : List FsTree
  rmOutcome : Except (List Char) Unit

/-- The outcome of one scaffold run: the value returned or error
propagated to the caller, the steps that executed in order, the manifest
written back by the merger (when one was), and the warning diagnostics. -/
structure RunOut where
  result : Except Err FileMap
  steps : List StepTag
  written : Option Manifest
  diags : List (List Char)

/-- The snapshot-and-filter tail of a successful run: read the generated
tree and apply the configured removal list (`remove || []`). -/
def snapshotFiltered (env : ScaffoldEnv) : FileMap :=
  removeFiles (readDir env.tree []) (some ((env.removeList).getD []))

/-- The manifest content `updatePackageJson` writes back, when the
manifest file exists and parses: the merge of the parsed manifest with the
module's dependency groups (`moduleConfig.dependencies || \x7b\x7d`). -/
def mergedManifest (env : ScaffoldEnv) : Option Manifest :=
  match env.pkgFile with
  | some (.valid m) => some (updatePackageJson m (env.depGroups.getD ⟨none⟩))
  | _ => none

/-- The warning `updatePackageJson` logs when the manifest file is
missing. -/
def missingPkgWarns (env : ScaffoldEnv) : List (List Char) :=
  match env.pkgFile with
  | none => [chars "package.json not found, skipping dependency update"]
  | _ => []

/-- The `try` body of `scaffold`: run the Vite create command, merge the
manifest (a missing manifest only warns, malformed JSON throws before any
write), run install and shadcn init unless in test mode (a shadcn failure
is caught and only warns), snapshot the generated tree and apply the
removal list. -/
def scaffoldBody (env : ScaffoldEnv) : RunOut :=
  let template := selectTemplate env.fieldValues
  match (runCommand (chars "npm") (chars "Creating Vite project") env.viteOutcome).1 with
  | .error e => ⟨.error e, [.viteCreate template], none, []⟩
  | .ok _ =>
    match env.pkgFile with
    | some (.invalid raw) =>
      ⟨.error (.manifestParse raw), [.viteCreate template, .updatePkg], none, []⟩
    | _ =>
      if env.testMode then
        ⟨.ok (snapshotFiltered env),
         [.viteCreate template, .updatePkg, .snapshot, .removeStep],
         mergedManifest env, missingPkgWarns env⟩
      else
        match (runCommand (chars "npm") (chars "Installing dependencies") env.installOutcome).1 with
        | .error e =>
          ⟨.error e, [.viteCreate template, .updatePkg, .npmInstall],
           mergedManifest env, missingPkgWarns env⟩
        | .ok _ =>
          match (runCommand (chars "npx") (chars "Initializing shadcn") env.shadcnOutcome).1 with
          | .error _ =>
            ⟨.ok (snapshotFiltered env),
             [.viteCreate template, .updatePkg, .npmInstall, .shadcnInit, .snapshot, .removeStep],
             mergedManifest env, missingPkgWarns env ++ [chars "shadcn init failed"]⟩
          | .ok _ =>
            ⟨.ok (snapshotFiltered env),
             [.viteCreate template, .updatePkg, .npmInstall, .shadcnInit, .snapshot, .removeStep],
             mergedManifest env, missingPkgWarns env⟩

/-- The whole of `scaffold`: the `try` body followed by the `finally`
block, which always removes the temporary workspace and turns a removal
failure into a warning without touching the body's result. -/
def scaffold (env : ScaffoldEnv) : RunOut :=
  let body := scaffoldBody env
  let cleanupWarns :=
    match env.rmOutcome with
    | .ok _ => []
    | .error m => [chars "Could not clean up temporary directory: " ++ m]
  ⟨body.result, body.steps ++ [.cleanup], body.written, body.diags ++ cleanupWarns⟩

/-- First-some choice on options, for stating incoming-wins merges. -/
def orO {α : Type} (x y : Option α) : Option α :=
  match x with
  | some v => some v
  | none => y

/-- A sample run environment whose generated manifest holds malformed
JSON. -/
def envParseFail : ScaffoldEnv :=
  ⟨none, none, none, .exits 0 [] [], some (.invalid (chars "not json")), true,
   .exits 0 [] [], .exits 0 [] [], [], .ok ()⟩

/-! ## Base64 round trip -/

theorem dec6_enc6 : ∀ i, i < 64 → dec6 (enc6 i) = some i := by decide

theorem enc6_ne_pad : ∀ i, i < 64 → enc6 i ≠ '=' := by decide

theorem b64_round_aux :
    ∀ (n : Nat) (bs : List Nat), bs.length ≤ n → (∀ b ∈ bs, b < 256) →
      b64Decode (b64Encode bs) = some bs := by
  intro n
  induction n with
  | zero =>
    intro bs hl _
    have : bs = [] := List.eq_nil_of_length_eq_zero (Nat.le_zero.mp hl)
    subst this
    rfl
  | succ n ih =>
    intro bs hl hb
    match bs with
    | [] => rfl
    | [b0] =>
      have h0 : b0 < 256 := hb b0 (by simp)
      have e0 := dec6_enc6 (b0 / 4) (by omega)
      have e1 := dec6_enc6 (b0 % 4 * 16) (by omega)
      simp only [b64Encode, b64Decode, e0, e1]
      simp only [if_pos rfl, and_self, if_true]
      simp
      omega
    | [b0, b1] =>
      have h0 : b0 < 256 := hb b0 (by simp)
      have h1 : b1 < 256 := hb b1 (by simp)
      have e0 := dec6_enc6 (b0 / 4) (by omega)
      have e1 := dec6_enc6 (b0 % 4 * 16 + b1 / 16) (by omega)
      have e2 := dec6_enc6 (b1 % 16 * 4) (by omega)
      have p2 := enc6_ne_pad (b1 % 16 * 4) (by omega)
      simp only [b64Encode, b64Decode, e0, e1, e2, if_neg p2, if_pos rfl, if_true]
      simp
      constructor <;> omega
    | b0 :: b1 :: b2 :: rest =>
      have h0 : b0 < 256 := hb b0 (by simp)
      have h1 : b1 < 256 := hb b1 (by simp)
      have h2 : b2 < 256 := hb b2 (by simp)
      have e0 := dec6_enc6 (b0 / 4) (by omega)
      have e1 := dec6_enc6 (b0 % 4 * 16 + b1 / 16) (by omega)
      have e2 := dec6_enc6 (b1 % 16 * 4 + b2 / 64) (by omega)
      have e3 := dec6_enc6 (b2 % 64) (by omega)
      have p2 := enc6_ne_pad (b1 % 16 * 4 + b2 / 64) (by omega)
      have p3 := enc6_ne_pad (b2 % 64) (by omega)
      have hrest : b64Decode (b64Encode rest) = some rest := by
        refine ih rest (by simp at hl; omega) ?_
        intro b hbm
        exact hb b (by simp [hbm])
      simp only [b64Encode, b64Decode, e0, e1, e2, e3, if_neg p2, if_neg p3, hrest,
        Option.map_some]
      simp
      refine ⟨by omega, by omega, by omega⟩

/-- Decoding the base64 encoding of any byte sequence gives back exactly
the original bytes. -/
theorem b64_roundtrip (bs : List Nat) (hb : ∀ b ∈ bs, b < 256) :
    b64Decode (b64Encode bs) = some bs :=
  b64_round_aux bs.length bs le_rfl hb

/-! ## Extension classification -/

theorem pfx_ext (e : List Char) :
    ∀ (r : List Char), '.' ∉ e →
      (pfxOf (e ++ ['.']) r = true ↔
        (('.' : Char) ∈ r ∧ r.takeWhile notDot = e)) := by
  induction e with
  | nil =>
    intro r _
    cases r with
    | nil => simp [pfxOf]
    | cons c r2 =>
      by_cases hc : c = '.'
      · subst hc
        simp [pfxOf, List.takeWhile_cons, notDot]
      · simp [pfxOf, List.takeWhile_cons, notDot, hc, Ne.symm hc]
  | cons a e2 ih =>
    intro r he
    have ha : a ≠ '.' := fun h => he (by simp [h])
    have he2 : ('.' : Char) ∉ e2 := fun h => he (by simp [h])
    cases r with
    | nil => simp [pfxOf]
    | cons c r2 =>
      by_cases hac : a = c
      · subst hac
        have hstep : pfxOf ((a :: e2) ++ ['.']) (a :: r2) = pfxOf (e2 ++ ['.']) r2 := by
          simp [pfxOf]
        rw [hstep, ih r2 he2]
        simp [List.takeWhile_cons, notDot, ha, List.mem_cons, Ne.symm ha]
      · by_cases hc : c = '.'
        · subst hc
          simp [pfxOf, ha, List.takeWhile_cons, notDot]
        · simp only [List.cons_append, pfxOf]
          rw [if_neg hac]
          simp [List.takeWhile_cons, notDot, hc, Ne.symm hc, Ne.symm hac]

theorem sfx_ext (e m : List Char) (he : '.' ∉ e) :
    (sfxOf ('.' :: e) m = true ↔ extOf m = some e) := by
  unfold sfxOf extOf
  rw [show ('.' :: e).reverse = e.reverse ++ ['.'] by simp]
  rw [pfx_ext e.reverse m.reverse (by simpa using he)]
  by_cases hm : ('.' : Char) ∈ m
  · simp only [List.mem_reverse, hm, if_pos, true_and]
    constructor
    · intro h
      rw [h]
      simp
    · intro h
      have := congrArg List.reverse (Option.some.inj h)
      simpa using this
  · simp [hm, List.mem_reverse]

theorem noDot_binaryExts : ∀ e ∈ binaryExts, ('.' : Char) ∉ e := by decide

theorem isBinaryName_iff (n : List Char) :
    isBinaryName n = true ↔ ∃ e ∈ binaryExts, lowerExt n = some e := by
  unfold isBinaryName lowerExt
  rw [List.any_eq_true]
  constructor
  · rintro ⟨e, he, hx⟩
    exact ⟨e, he, (sfx_ext e _ (noDot_binaryExts e he)).mp hx⟩
  · rintro ⟨e, he, hx⟩
    exact ⟨e, he, (sfx_ext e _ (noDot_binaryExts e he)).mpr hx⟩

/-! ## Case-insensitivity of the classification -/

theorem lowerc_dot_iff (c : Char) : lowerc c = '.' ↔ c = '.' := by
  unfold lowerc
  split <;> simp_all

theorem takeWhile_lowerc (r : List Char) :
    (r.map lowerc).takeWhile notDot = (r.takeWhile notDot).map lowerc := by
  induction r with
  | nil => simp
  | cons a r2 ih =>
    by_cases ha : a = '.'
    · subst ha
      have hn1 : ¬ (notDot (lowerc '.') = true) := by decide
      have hn2 : ¬ (notDot ('.' : Char) = true) := by decide
      simp only [List.map_cons, List.takeWhile_cons_of_neg hn1,
        List.takeWhile_cons_of_neg hn2, List.map_nil]
    · have hla : lowerc a ≠ '.' := fun h => ha ((lowerc_dot_iff a).mp h)
      have h1 : notDot (lowerc a) = true := by simp [notDot, hla]
      have h2 : notDot a = true := by simp [notDot, ha]
      simp only [List.map_cons, List.takeWhile_cons_of_pos h1,
        List.takeWhile_cons_of_pos h2, List.map_cons]
      rw [ih]

theorem extOf_map_lowerc (m : List Char) :
    extOf (m.map lowerc) = (extOf m).map (List.map lowerc) := by
  unfold extOf
  by_cases hm : ('.' : Char) ∈ m
  · have hm2 : ('.' : Char) ∈ m.map lowerc :=
      List.mem_map.mpr ⟨'.', hm, by decide⟩
    simp only [hm, hm2, if_pos, Option.map_some]
    congr 1
    rw [← List.map_reverse, takeWhile_lowerc, ← List.map_reverse]
  · have hm2 : ('.' : Char) ∉ m.map lowerc := by
      intro h
      rcases List.mem_map.mp h with ⟨a, ha, hla⟩
      exact hm (((lowerc_dot_iff a).mp hla) ▸ ha)
    simp [hm, hm2]


/-! ## Snapshot inversion -/

theorem readDir_mem (t : List FsTree) (base p : List Char) (e : FileEntry)
    (h : (p, e) ∈ readDir t base) :
    ∃ n c, FileInTree t n c ∧ e = mkEntry n c := by
  induction t, base using readDir.induct with
  | case1 b =>
    simp [readDir] at h
  | case2 n c rest base ih =>
    rw [readDir] at h
    rcases List.mem_cons.mp h with h | h
    · exact ⟨n, c, .here n c rest, by simp [Prod.ext_iff] at h; exact h.2⟩
    · rcases ih h with ⟨n2, c2, hin, he⟩
      exact ⟨n2, c2, .there _ _ _ _ hin, he⟩
  | case3 n sub rest base ih1 ih2 =>
    rw [readDir] at h
    rcases List.mem_append.mp h with h | h
    · rcases ih1 h with ⟨n2, c2, hin, he⟩
      exact ⟨n2, c2, .inDir _ _ _ _ _ hin, he⟩
    · rcases ih2 h with ⟨n2, c2, hin, he⟩
      exact ⟨n2, c2, .there _ _ _ _ hin, he⟩

theorem bytesOk_of_inTree (t : List FsTree) (n : List Char) (c : List Nat)
    (hin : FileInTree t n c) (hok : treeBytesOk t = true) :
    ∀ b ∈ c, b < 256 := by
  induction hin with
  | here n c rest =>
    rw [treeBytesOk] at hok
    rcases Bool.and_eq_true_iff.mp hok with ⟨h1, _⟩
    intro b hb
    have := List.all_eq_true.mp h1 b hb
    simpa using this
  | there x rest n c _ ih =>
    cases x with
    | file n2 c2 =>
      rw [treeBytesOk] at hok
      exact ih (Bool.and_eq_true_iff.mp hok).2
    | dir n2 sub =>
      rw [treeBytesOk] at hok
      exact ih (Bool.and_eq_true_iff.mp hok).2
  | inDir d sub rest n c _ ih =>
    rw [treeBytesOk] at hok
    exact ih (Bool.and_eq_true_iff.mp hok).1

/-- C1: every entry captured by the Directory Snapshotter comes from a
file of the tree; its encoding is Binary exactly when the file name's
(lowercased) extension is on the fixed allow-list; a Binary entry's
content decodes from base64 to exactly the original bytes; and any other
entry is Text, with content the bytes decoded as UTF-8. -/
theorem claim1 (t : List FsTree) (base p : List Char) (e : FileEntry)
    (hmem : (p, e) ∈ readDir t base) (hok : treeBytesOk t = true) :
    ∃ n c, FileInTree t n c ∧ e = mkEntry n c
      ∧ (e.enc = .binary ↔ ∃ x ∈ binaryExts, lowerExt n = some x)
      ∧ (e.enc = .text ↔ ¬ ∃ x ∈ binaryExts, lowerExt n = some x)
      ∧ (e.enc = .binary → b64Decode e.content = some c)
      ∧ (e.enc = .text → e.content = utf8Decode c) := by
  rcases readDir_mem t base p e hmem with ⟨n, c, hin, he⟩
  have hbytes := bytesOk_of_inTree t n c hin hok
  refine ⟨n, c, hin, he, ?_⟩
  subst he
  by_cases hb : isBinaryName n = true
  · rw [show mkEntry n c = ⟨.binary, b64Encode c⟩ from by simp [mkEntry, hb]]
    refine ⟨by simpa using (isBinaryName_iff n).mp hb, ?_, ?_, ?_⟩
    · simp only [show (Encoding.text = Encoding.binary) = False from by simp, false_iff]
      simpa using (isBinaryName_iff n).mp hb
    · intro _
      exact b64_roundtrip c hbytes
    · intro h
      simp at h
  · rw [show mkEntry n c = ⟨.text, utf8Decode c⟩ from by simp [mkEntry, hb]]
    have hnb : ¬ ∃ x ∈ binaryExts, lowerExt n = some x := by
      intro hx
      exact hb ((isBinaryName_iff n).mpr (by simpa using hx))
    refine ⟨?_, ?_, ?_, fun _ => rfl⟩
    · simp only [show (Encoding.binary = Encoding.text) = False from by simp [Encoding]]
      constructor
      · intro h
        simp at h
      · intro hx
        exact absurd hx hnb
    · simpa using hnb
    · intro h
      simp at h

/-- Witness for C1 at a one-file tree holding `logo.png`. -/
theorem claim1_witness :
    ∃ n c, FileInTree [FsTree.file (chars "logo.png") [1, 2, 3]] n c
      ∧ mkEntry (chars "logo.png") [1, 2, 3] = mkEntry n c
      ∧ ((mkEntry (chars "logo.png") [1, 2, 3]).enc = .binary ↔
          ∃ x ∈ binaryExts, lowerExt n = some x)
      ∧ ((mkEntry (chars "logo.png") [1, 2, 3]).enc = .text ↔
          ¬ ∃ x ∈ binaryExts, lowerExt n = some x)
      ∧ ((mkEntry (chars "logo.png") [1, 2, 3]).enc = .binary →
          b64Decode (mkEntry (chars "logo.png") [1, 2, 3]).content = some c)
      ∧ ((mkEntry (chars "logo.png") [1, 2, 3]).enc = .text →
          (mkEntry (chars "logo.png") [1, 2, 3]).content = utf8Decode c) :=
  claim1 [FsTree.file (chars "logo.png") [1, 2, 3]] [] (chars "logo.png")
    (mkEntry (chars "logo.png") [1, 2, 3])
    (by simp [readDir, pathJoin])
    (by rw [treeBytesOk, treeBytesOk]; decide)

/-- C9: the classification is case-insensitive: a file whose extension
equals an allow-listed extension up to ASCII letter case is captured as
Binary. -/
theorem claim9 (n : List Char) (c : List Nat) (x : List Char)
    (hx : extOf n = some x) (hmem : x.map lowerc ∈ binaryExts) :
    (mkEntry n c).enc = .binary := by
  have hlow : lowerExt n = some (x.map lowerc) := by
    unfold lowerExt
    rw [extOf_map_lowerc, hx]
    rfl
  have hb : isBinaryName n = true :=
    (isBinaryName_iff n).mpr ⟨x.map lowerc, hmem, hlow⟩
  simp [mkEntry, hb]

/-- Witness for C9 at the upper-case name `LOGO.PNG`. -/
theorem claim9_witness : (mkEntry (chars "LOGO.PNG") [7]).enc = .binary :=
  claim9 (chars "LOGO.PNG") [7] (chars "PNG") (by decide) (by decide)


/-! ## File Remover -/

theorem lookupKey_none_keys {α : Type} (k : List Char) (m : List (List Char × α))
    (h : lookupKey k m = none) : ∀ kv ∈ m, kv.1 ≠ k := by
  induction m with
  | nil => simp
  | cons kv2 rest ih =>
    rw [lookupKey] at h
    by_cases hk : kv2.1 = k
    · rw [if_pos hk] at h
      simp at h
    · rw [if_neg hk] at h
      intro kv hkv
      rcases List.mem_cons.mp hkv with hkv | hkv
      · subst hkv
        exact hk
      · exact ih h kv hkv

theorem removeLoop_eq_filter (ps : List (List Char)) :
    ∀ m : FileMap, removeLoop m ps = m.filter (fun kv => kv.1 ∉ ps) := by
  induction ps with
  | nil =>
    intro m
    rw [removeLoop]
    exact (List.filter_eq_self.mpr (fun kv _ => by simp)).symm
  | cons p ps2 ih =>
    intro m
    rw [removeLoop]
    have hstep : (if hasKey p m then eraseKey p m else m) =
        m.filter (fun kv => kv.1 ≠ p) := by
      by_cases h : hasKey p m
      · rw [if_pos h]
        rfl
      · rw [if_neg h]
        refine (List.filter_eq_self.mpr ?_).symm
        intro kv hkv
        have hnone : lookupKey p m = none := by
          unfold hasKey at h
          cases hx : lookupKey p m with
          | none => rfl
          | some v => rw [hx] at h; simp at h
        simpa using lookupKey_none_keys p m hnone kv hkv
    rw [hstep, ih, List.filter_filter]
    apply List.filter_congr
    intro kv _
    by_cases h1 : kv.1 = p <;> by_cases h2 : kv.1 ∈ ps2 <;>
      simp [h1, h2, List.mem_cons]

theorem lookupKey_filter_notmem (k : List Char) (ps : List (List Char)) :
    ∀ m : FileMap,
      lookupKey k (m.filter (fun kv => kv.1 ∉ ps)) =
        if k ∈ ps then none else lookupKey k m := by
  intro m
  induction m with
  | nil => simp [lookupKey]
  | cons kv rest ih =>
    by_cases hmem : kv.1 ∈ ps
    · rw [List.filter_cons_of_neg (by simpa using hmem)]
      rw [ih]
      by_cases hk : k ∈ ps
      · simp [hk]
      · have hne : kv.1 ≠ k := fun h => hk (h ▸ hmem)
        simp [hk, lookupKey, hne]
    · rw [List.filter_cons_of_pos (by simpa using hmem)]
      by_cases hkk : kv.1 = k
      · subst hkk
        simp [lookupKey, hmem]
      · rw [lookupKey, if_neg hkk, ih, lookupKey, if_neg hkk]

/-- C3: the File Remover deletes exactly the listed paths that are present
(an absent listed path is harmless), leaves every other binding untouched,
and an absent or empty removal list returns the map unchanged. -/
theorem claim3 :
    ∀ (m : FileMap) (ps : List (List Char)) (k : List Char),
      (lookupKey k (removeFiles m (some ps)) =
        if k ∈ ps then none else lookupKey k m)
      ∧ removeFiles m none = m
      ∧ removeFiles m (some []) = m := by
  intro m ps k
  refine ⟨?_, rfl, rfl⟩
  cases ps with
  | nil => simp [removeFiles]
  | cons p ps2 =>
    rw [show removeFiles m (some (p :: ps2)) = removeLoop m (p :: ps2) from rfl]
    rw [removeLoop_eq_filter, lookupKey_filter_notmem]

/-- C7: the File Remover is idempotent: removing the same list twice
equals removing it once. -/
theorem claim7 :
    ∀ (m : FileMap) (r : Option (List (List Char))),
      removeFiles (removeFiles m r) r = removeFiles m r := by
  intro m r
  match r with
  | none => rfl
  | some [] => rfl
  | some (p :: ps) =>
    show removeLoop (removeLoop m (p :: ps)) (p :: ps) = removeLoop m (p :: ps)
    rw [removeLoop_eq_filter, removeLoop_eq_filter, List.filter_filter]
    apply List.filter_congr
    intro kv _
    by_cases h : kv.1 ∈ p :: ps <;> simp [h]


/-! ## Manifest Merger -/

theorem lookupKey_append {α : Type} (k : List Char)
    (x y : List (List Char × α)) :
    lookupKey k (x ++ y) = orO (lookupKey k x) (lookupKey k y) := by
  induction x with
  | nil => rfl
  | cons kv rest ih =>
    by_cases h : kv.1 = k
    · rw [List.cons_append]
      rw [show lookupKey k ((kv.1, kv.2) :: (rest ++ y)) = some kv.2 from by
        rw [lookupKey, if_pos h]]
      rw [show lookupKey k ((kv.1, kv.2) :: rest) = some kv.2 from by
        rw [lookupKey, if_pos h]]
      rfl
    · rw [List.cons_append]
      rw [show lookupKey k ((kv.1, kv.2) :: (rest ++ y)) = lookupKey k (rest ++ y) from by
        rw [lookupKey, if_neg h]]
      rw [show lookupKey k ((kv.1, kv.2) :: rest) = lookupKey k rest from by
        rw [lookupKey, if_neg h]]
      exact ih

theorem lookupKey_mapOverride (k : List Char) (a b : Obj) :
    lookupKey k (a.map (fun kv =>
      match lookupKey kv.1 b with
      | some v => (kv.1, v)
      | none => kv)) =
    (lookupKey k a).map (fun v =>
      match lookupKey k b with
      | some w => w
      | none => v) := by
  induction a with
  | nil => rfl
  | cons kv rest ih =>
    by_cases h : kv.1 = k
    · subst h
      cases hb : lookupKey kv.1 b with
      | some w => simp [lookupKey, hb, List.map_cons]
      | none => simp [lookupKey, hb, List.map_cons]
    · cases hb : lookupKey kv.1 b with
      | some w =>
        simp only [List.map_cons, hb, lookupKey, if_neg h, ih]
      | none =>
        simp only [List.map_cons, hb, lookupKey, if_neg h, ih]

theorem lookupKey_filter_nokey (k : List Char) (a b : Obj)
    (ha : lookupKey k a = none) :
    lookupKey k (b.filter (fun kv => ¬ hasKey kv.1 a)) = lookupKey k b := by
  induction b with
  | nil => rfl
  | cons kv rest ih =>
    by_cases h : kv.1 = k
    · subst h
      have hkeep : (hasKey kv.1 a) = false := by
        unfold hasKey
        rw [ha]
        rfl
      rw [List.filter_cons_of_pos (by simp [hkeep])]
      rw [lookupKey, if_pos rfl, lookupKey, if_pos rfl]
    · by_cases hin : hasKey kv.1 a
      · rw [List.filter_cons_of_neg (by simpa using hin)]
        rw [ih, lookupKey, if_neg h]
      · rw [List.filter_cons_of_pos (by simpa using hin)]
        rw [lookupKey, if_neg h, lookupKey, if_neg h]
        exact ih

theorem lookupKey_spreadMerge (k : List Char) (a b : Obj) :
    lookupKey k (spreadMerge a b) = orO (lookupKey k b) (lookupKey k a) := by
  unfold spreadMerge
  rw [lookupKey_append, lookupKey_mapOverride]
  cases hla : lookupKey k a with
  | some v =>
    cases hlb : lookupKey k b with
    | some w => simp [hlb, orO]
    | none => simp [hlb, orO]
  | none =>
    rw [lookupKey_filter_nokey k a b hla]
    cases hlb : lookupKey k b with
    | some w => simp [orO]
    | none => simp [orO]

/-- C2: merging dependency groups into an existing manifest is a per-key
union in which an incoming binding wins over a pre-existing one and every
pre-existing binding not mentioned by the incoming group is preserved, for
both `dependencies` and `devDependencies`. -/
theorem claim2 :
    ∀ (pkg : Manifest) (deps : DepGroups) (k : List Char),
      lookupKey k (((updatePackageJson pkg deps).dependencies).getD []) =
        orO (lookupKey k (incDeps deps)) (lookupKey k (pkg.dependencies.getD []))
      ∧ lookupKey k (((updatePackageJson pkg deps).devDependencies).getD []) =
        orO (lookupKey k (incDevDeps deps)) (lookupKey k (pkg.devDependencies.getD [])) := by
  intro pkg deps k
  cases hn : deps.npm with
  | none =>
    constructor <;>
      simp [updatePackageJson, hn, incDeps, incDevDeps, orO, lookupKey]
  | some g =>
    cases hd : g.dependencies <;> cases hv : g.devDependencies <;>
      constructor <;>
      simp [updatePackageJson, hn, hd, hv, incDeps, incDevDeps, orO, lookupKey,
        Option.bind, lookupKey_spreadMerge]


/-! ## Command Runner -/

/-- C6 counterexample: two runs that exit with the same nonzero code but
different captured stdout produce identical rejection errors, so the
error value cannot carry the captured output streams. -/
theorem claim6_cex :
    (runCommand (chars "npm") (chars "Installing dependencies")
        (.exits 1 (chars "outA") (chars "errA"))).1 =
      (runCommand (chars "npm") (chars "Installing dependencies")
        (.exits 1 (chars "outB") (chars "errB"))).1
    ∧ chars "outA" ≠ chars "outB" := by
  constructor
  · rfl
  · decide

/-- C6 (amended): the Command Runner resolves exactly on exit code 0; a
nonzero exit rejects with an error carrying the step description and the
exit code, while the captured stdout and stderr go to the console log, not
onto the error; a spawn failure rejects with a launch error of a distinct
shape; each outcome is handled once, with no retry. -/
theorem claim6 :
    ∀ (cmd desc : List Char) (o : CmdOutcome),
      ((runCommand cmd desc o).1 = .ok () ↔ ∃ out err, o = .exits 0 out err)
      ∧ (∀ code out err, o = .exits code out err → code ≠ 0 →
          (runCommand cmd desc o).1 = .error (.nonZeroExit desc code)
          ∧ (runCommand cmd desc o).2 = [out, err])
      ∧ (∀ msg, o = .spawnErr msg →
          (runCommand cmd desc o).1 = .error (.launchErr cmd msg)
          ∧ (runCommand cmd desc o).2 = [])
      ∧ (∀ code msg, (Err.nonZeroExit desc code) ≠ (Err.launchErr cmd msg)) := by
  intro cmd desc o
  refine ⟨?_, ?_, ?_, ?_⟩
  · constructor
    · intro h
      cases o with
      | spawnErr m => simp [runCommand] at h
      | exits code out err =>
        by_cases hc : code = 0
        · subst hc
          exact ⟨out, err, rfl⟩
        · simp [runCommand, hc] at h
    · rintro ⟨out, err, rfl⟩
      simp [runCommand]
  · rintro code out err rfl hc
    constructor <;> simp [runCommand, hc]
  · rintro msg rfl
    constructor <;> simp [runCommand]
  · intro code msg
    simp

/-! ## Scaffold Orchestrator -/

/-- C4: the cleanup step is the last step of every run, whatever the
outcome; the run's result does not depend on the outcome of the
temporary-workspace removal; and a failed removal contributes exactly one
extra warning diagnostic. -/
theorem claim4 :
    ∀ (env : ScaffoldEnv) (r : Except (List Char) Unit) (msg : List Char),
      (scaffold env).steps.getLast? = some .cleanup
      ∧ (scaffold { env with rmOutcome := r }).result = (scaffold env).result
      ∧ (scaffold { env with rmOutcome := .error msg }).diags =
          (scaffoldBody env).diags ++
            [chars "Could not clean up temporary directory: " ++ msg] := by
  intro env r msg
  cases env
  exact ⟨List.getLast?_concat _, rfl, rfl⟩

/-- C5: when the generated manifest exists but holds malformed JSON, the
run fails with the manifest parse error, no merged manifest is written,
and the run ends right after the merge step (cleanup still runs, the later
steps never do). -/
theorem claim5 (env : ScaffoldEnv) (out err raw : List Char)
    (hvite : env.viteOutcome = .exits 0 out err)
    (hpkg : env.pkgFile = some (.invalid raw)) :
    (scaffold env).result = .error (.manifestParse raw)
    ∧ (scaffold env).written = none
    ∧ (scaffold env).steps =
        [.viteCreate (selectTemplate env.fieldValues), .updatePkg, .cleanup] := by
  refine ⟨?_, ?_, ?_⟩ <;>
    simp [scaffold, scaffoldBody, runCommand, hvite, hpkg]

/-- Witness for C5 at a concrete environment with a malformed manifest. -/
theorem claim5_witness :
    (scaffold envParseFail).result = .error (.manifestParse (chars "not json"))
    ∧ (scaffold envParseFail).written = none
    ∧ (scaffold envParseFail).steps =
        [.viteCreate (selectTemplate envParseFail.fieldValues), .updatePkg, .cleanup] :=
  claim5 envParseFail [] [] (chars "not json") rfl rfl

/-- C8: every run invokes the generator first, with template `react` when
`useTypeScript` is exactly `false` and `react-ts` for any other value, in
particular when the field or the whole field-value object is absent. -/
theorem claim8 :
    ∀ (env : ScaffoldEnv),
      (scaffold env).steps.head? = some (.viteCreate (selectTemplate env.fieldValues))
      ∧ (getUseTS env.fieldValues = .boolean false →
          selectTemplate env.fieldValues = chars "react")
      ∧ (getUseTS env.fieldValues ≠ .boolean false →
          selectTemplate env.fieldValues = chars "react-ts")
      ∧ (env.fieldValues = none → selectTemplate env.fieldValues = chars "react-ts") := by
  intro env
  refine ⟨?_, ?_, ?_, ?_⟩
  · have hshape : ∃ rest, (scaffoldBody env).steps =
        .viteCreate (selectTemplate env.fieldValues) :: rest := by
      unfold scaffoldBody
      split
      · exact ⟨_, rfl⟩
      · split
        · exact ⟨_, rfl⟩
        · split
          · exact ⟨_, rfl⟩
          · split
            · exact ⟨_, rfl⟩
            · split
              · exact ⟨_, rfl⟩
              · exact ⟨_, rfl⟩
    rcases hshape with ⟨rest, hrest⟩
    show ((scaffoldBody env).steps ++ [StepTag.cleanup]).head? = _
    rw [hrest]
    rfl
  · intro h
    simp [selectTemplate, h]
  · intro h
    simp [selectTemplate, h]
  · intro h
    simp [selectTemplate, getUseTS, h]

/-- Witness for C8's conditional parts at concrete field values. -/
theorem claim8_witness :
    selectTemplate (some ⟨.boolean false⟩) = chars "react"
    ∧ selectTemplate (some ⟨.boolean true⟩) = chars "react-ts"
    ∧ selectTemplate none = chars "react-ts" :=
  ⟨(claim8 ⟨some ⟨.boolean false⟩, none, none, .exits 0 [] [], none, true,
      .exits 0 [] [], .exits 0 [] [], [], .ok ()⟩).2.1 rfl,
   (claim8 ⟨some ⟨.boolean true⟩, none, none, .exits 0 [] [], none, true,
      .exits 0 [] [], .exits 0 [] [], [], .ok ()⟩).2.2.1 (by decide),
   (claim8 ⟨none, none, none, .exits 0 [] [], none, true,
      .exits 0 [] [], .exits 0 [] [], [], .ok ()⟩).2.2.2 rfl⟩

/-- C10: only the exact boolean `false` selects the plain-JavaScript
template; absent, null, numeric zero and the string `false` all select the
TypeScript template. -/
theorem claim10 :
    ∀ (v : JsVal),
      (selectTemplate (some ⟨v⟩) = chars "react" ↔ v = .boolean false)
      ∧ selectTemplate none = chars "react-ts"
      ∧ selectTemplate (some ⟨.nullv⟩) = chars "react-ts"
      ∧ selectTemplate (some ⟨.number 0⟩) = chars "react-ts"
      ∧ selectTemplate (some ⟨.strv (chars "false")⟩) = chars "react-ts" := by
  intro v
  refine ⟨?_, by decide, by decide, by decide, by decide⟩
  constructor
  · intro h
    by_contra hv
    rw [show selectTemplate (some ⟨v⟩) = chars "react-ts" from by
      simp [selectTemplate, getUseTS, hv]] at h
    exact absurd h (by decide)
  · intro h
    subst h
    decide

end CodeReact
